import Mathlib

/-!
# Verification of the `summary` extractive summarizer (`src/lib.rs`)

Shallow embedding of the sentence-selection pipeline of the `summary` crate.

Modelling conventions:

* A document is represented by its list of segmented sentences
  (`List String`), in document order.  Sentence segmentation itself is
  performed by the external `unicode-segmentation` crate
  (`text.unicode_sentences()`), which partitions the input text, so the
  byte length of the document equals the sum of the byte lengths of its
  sentences (`docLen`).
* The similarity ranking produced by `Summarizer::summarize_indices`
  (lines 58-95 of `src/lib.rs`) sorts the index list `0..sentences.len()`
  by a floating-point key.  The floating-point values themselves are not
  reproducible in exact arithmetic; the structural fact used by the
  selection stage is that the result is a permutation of
  `List.range sentences.length`.  The top-level selection functions are
  therefore parametrised by this `ranking`, and the theorems carry the
  hypothesis `ranking.Perm (List.range doc.length)`.
* Rust machine integers are modelled as `Nat`; the `f64` ratio argument is
  modelled as `ℚ` (the concrete ratios used in witnesses are exactly
  representable in `f64`, and the products taken are exact in `f64`
  arithmetic for the input sizes involved).
* Panics (`assert!`) are modelled by an `Except SummaryError` result.
-/

/-- Error taxonomy of the two `assert!` preconditions in `src/lib.rs`
(lines 59-62 and line 111). -/
inductive SummaryError where
  | inputTooLarge
  | invalidRatio
deriving DecidableEq

/-- `u32::MAX`, the document-size ceiling of the
`u32::try_from(text.len()).is_ok()` assertion (line 60). -/
def U32_MAX : Nat := 2 ^ 32 - 1

/-- Byte length of the document: `unicode_sentences` partitions the text,
so `text.len()` equals the total byte length of the sentences. -/
def docLen (doc : List String) : Nat := (doc.map String.utf8ByteSize).sum

/-- The Unicode `White_Space` property, the character class removed by
the Rust `str::trim_end` function (via `char::is_whitespace`). -/
def isRustWhitespace (c : Char) : Bool :=
  decide ((0x9 ≤ c.toNat ∧ c.toNat ≤ 0xD) ∨ c.toNat = 0x20 ∨ c.toNat = 0x85 ∨
    c.toNat = 0xA0 ∨ c.toNat = 0x1680 ∨ (0x2000 ≤ c.toNat ∧ c.toNat ≤ 0x200A) ∨
    c.toNat = 0x2028 ∨ c.toNat = 0x2029 ∨ c.toNat = 0x202F ∨ c.toNat = 0x205F ∨
    c.toNat = 0x3000)

/-- Model of Rust `str::trim_end`: drop trailing `White_Space` characters. -/
def rustTrimEnd (s : String) : String :=
  String.mk ((s.data.reverse.dropWhile isRustWhitespace).reverse)

/-- The per-sentence cost accumulated by `summarize_ratio`
(line 124 of `src/lib.rs`): `sentences[j].trim_end().len() + 1`. -/
def sentenceCost (s : String) : Nat := (rustTrimEnd s).utf8ByteSize + 1

/-- Model of Rust `f64::round` followed by `as usize` on a non-negative
value: round half away from zero. -/
def rustRound (q : ℚ) : Nat := (Int.floor (q + 1/2)).toNat

/-- Model of the `sentences.retain(...)` loop in `summarize_impl`
(lines 355-366 of `src/lib.rs`): walk the sentence list with a running
position `i`, keeping a sentence exactly when `i` equals the head of the
remaining (sorted) index list, which is then popped.  The Rust code indexes
`indices[0]` unconditionally and would panic on an empty index list; that
state is unreachable because the list was truncated to the largest index
plus one, and the model simply keeps nothing there. -/
def retainLoop : List String → List Nat → Nat → List String
  | [], _, _ => []
  | s :: ss, idxs, i =>
    match idxs with
    | [] => retainLoop ss [] (i + 1)
    | j :: rest =>
      if i = j then s :: retainLoop ss rest (i + 1)
      else retainLoop ss (j :: rest) (i + 1)

/-- Model of `summarize_impl` (lines 350-368 of `src/lib.rs`): sort the
selected indices ascending (`sort_unstable`; insertion sort produces the
same sorted list for `Nat` keys), truncate the sentence list to the largest
index plus one, and retain exactly the sentences at the selected positions.
The `indices.last().unwrap()` panics on an empty selection; callers always
pass a non-empty selection, and the model returns `[]` on that unreachable
branch. -/
def summarize_impl (sentences : List String) (indices : List Nat) : List String :=
  match (List.insertionSort (· ≤ ·) indices).getLast? with
  | none => []
  | some last => retainLoop (sentences.take (last + 1)) (List.insertionSort (· ≤ ·) indices) 0

/-- Model of the `indices.iter().enumerate().find_map(...)` walk of
`summarize_ratio` (lines 119-131 of `src/lib.rs`): `total` is the running
accumulated length, `i` the current position in the ranking; the first
position whose accumulated cost exceeds `target` is returned, or the final
position (`indices.len()`, via `unwrap_or`) when the total never exceeds
the target. -/
def findEndAux : List Nat → Nat → Nat → Nat → Nat
  | [], _, _, i => i
  | c :: cs, target, total, i =>
    if target < total + c then i else findEndAux cs target (total + c) (i + 1)

/-- Model of `Summarizer::summarize_sentences` (lines 147-154 of
`src/lib.rs`), parametrised by the similarity `ranking` (see the module
docstring).  The `assert!` on the text length (line 60 via
`summarize_indices`) is modelled as an `Except` error; an empty sentence
list short-circuits to an empty summary. -/
def summarize_sentences (doc : List String) (ranking : List Nat) (n : Nat) :
    Except SummaryError (List String) :=
  if U32_MAX < docLen doc then .error .inputTooLarge
  else if doc = [] then .ok []
  else .ok (summarize_impl doc (ranking.take n))

/-- Model of `Summarizer::summarize_ratio` (lines 110-136 of `src/lib.rs`),
parametrised by the similarity `ranking`.  The ratio assertion (line 111)
precedes the length assertion (line 60, inside `summarize_indices`), which
precedes the empty-document short circuit. -/
def summarize_ratio (doc : List String) (ranking : List Nat) (ratio : ℚ) :
    Except SummaryError (List String) :=
  if ¬ (0 ≤ ratio ∧ ratio ≤ 1) then .error .invalidRatio
  else if U32_MAX < docLen doc then .error .inputTooLarge
  else if doc = [] then .ok []
  else
    let target := rustRound (ratio * (docLen doc : ℚ))
    let costs := ranking.map (fun j => sentenceCost (doc.getD j ""))
    let e := max (findEndAux costs target 0 0) 1
    .ok (summarize_impl doc (ranking.take e))

/-- Accumulated cost of the first `e` positions of the ranking, as walked
by `summarize_ratio`. -/
def cumCost (doc : List String) (ranking : List Nat) (e : Nat) : Nat :=
  ((ranking.take e).map (fun j => sentenceCost (doc.getD j ""))).sum

/-- The selection described by the words of claim C1 (and §4.7 of the spec),
modelled from the spec for comparison with `summarize_ratio`: walk the
ranking accumulating `trim_end(sentence).length + 1` and stop as soon as
the accumulated length exceeds the target, *including* the sentence that
caused the overflow in the selection. -/
def ratioSelectClaimed (doc : List String) (ranking : List Nat) (ratio : ℚ) :
    List String :=
  let target := rustRound (ratio * (docLen doc : ℚ))
  let costs := ranking.map (fun j => sentenceCost (doc.getD j ""))
  let firstOverflow := findEndAux costs target 0 0
  let e := if firstOverflow < ranking.length then firstOverflow + 1 else ranking.length
  summarize_impl doc (ranking.take e)

/-! ## The core selector (`max_by_key`, lines 77-83 of `src/lib.rs`)

The core sentence index is
`tf_idfs.iter().enumerate().map(|(i, v)| (i, OrdFloat(cos(v, overall)))).max_by_key(|(_, x)| *x)`.
The Rust `Iterator::max_by_key` keeps the current maximum only while it is
*strictly* greater than the next element, so among equal keys the **last**
element wins.  The similarity keys are modelled as exact rationals (the
claim under study concerns the tie-break rule, which depends only on the
total order `f64::total_cmp` induces on the keys). -/

/-- One comparison step of the Rust `max_by_key`: the current best
`(index, key)` pair survives only while its key is *strictly* greater
than the key of the next element. -/
def coreStep (best : Option (Nat × ℚ)) (i : Nat) (x : ℚ) : Option (Nat × ℚ) :=
  match best with
  | none => some (i, x)
  | some (j, m) => if m > x then some (j, m) else some (i, x)

/-- Fold of the Rust `max_by_key` over the enumerated similarity list. -/
def coreIndexAux : List ℚ → Nat → Option (Nat × ℚ) → Option (Nat × ℚ)
  | [], _, best => best
  | x :: xs, i, best => coreIndexAux xs (i + 1) (coreStep best i x)

/-- The index of the core sentence selected from a list of similarity
keys (lines 77-83 of `src/lib.rs`). -/
def coreIndex (sims : List ℚ) : Option Nat :=
  (coreIndexAux sims 0 none).map Prod.fst

/-- The selection described by the words of claim C9, modelled from the spec
for comparison: the first (lowest) index achieving the maximum key. -/
def firstMaxIndex (sims : List ℚ) : Option Nat :=
  sims.findIdx? (fun x => sims.all (fun y => decide (y ≤ x)))

/-! ## The tf-idf vectorizer and degenerate (zero-magnitude) groups

Model of `tf_idf` (lines 417-441), `cosine_compare` (lines 405-415) and
`idfs` (lines 443-466) of `src/lib.rs`.  Numbers are modelled by the
fragment of IEEE-754 `f64` these claims exercise: exact rational values
plus NaN.  Every operation on the analysed paths is exact in `f64`
(products and sums of small integers, `2.0/2.0`, `log2(1.0) = 0`,
`sqrt(0.0) = 0`, and `0.0/0.0 = NaN`), so no rounding model is needed;
infinities cannot arise because the only zero divisor (`mag = 0`) occurs
exactly when every numerator is zero as well.  `sqrt` and `log2` are
irrational-valued in general and enter as function parameters; theorems
constrain them only at the exactly-representable points they are applied
to.  The `HashMap`s are modelled as association lists: with exact
arithmetic every sum the code takes over a map is
iteration-order-independent, so the arbitrary iteration order of
`HashMap` is immaterial. -/

inductive F64 where
  | num (q : ℚ)
  | nan
deriving DecidableEq

/-- `f64` addition on the exercised fragment: NaN propagates. -/
def fadd : F64 → F64 → F64
  | .num a, .num b => .num (a + b)
  | _, _ => .nan

/-- `f64` multiplication on the exercised fragment: NaN propagates. -/
def fmul : F64 → F64 → F64
  | .num a, .num b => .num (a * b)
  | _, _ => .nan

/-- `f64` division on the exercised fragment: NaN propagates, and a zero
divisor yields NaN (the dividend is always zero when this happens in the
analysed code, and `0.0/0.0 = NaN`). -/
def fdiv : F64 → F64 → F64
  | .num a, .num b => if b = 0 then .nan else .num (a / b)
  | _, _ => .nan

/-- Association-list model of `HashMap<Box<str>, f64>`. -/
abbrev IdfMap := List (String × F64)

/-- `HashMap::get`. -/
def alGet (m : IdfMap) (w : String) : Option F64 :=
  (m.find? (fun p => p.1 == w)).map Prod.snd

/-- `*word_counts.entry(word).or_default() += 1` on an association list. -/
def bumpCount (m : List (String × Nat)) (w : String) : List (String × Nat) :=
  if m.any (fun p => p.1 == w) then
    m.map (fun p => if p.1 == w then (p.1, p.2 + 1) else p)
  else m ++ [(w, 1)]

/-- Model of `str::to_lowercase` (exact on the ASCII inputs analysed). -/
def lowerStr (s : String) : String := String.mk (s.data.map Char.toLower)

/-- Splitting a character stream into whitespace-separated words:
model of `unicode_words` from the external `unicode-segmentation` crate,
which is opaque to this crate; on the space-separated alphabetic inputs
analysed here the two coincide (`unicode_words` also drops punctuation,
which the inputs do not contain). -/
def wordsOfChars : List Char → List Char → List (List Char)
  | [], acc => if acc = [] then [] else [acc.reverse]
  | c :: cs, acc =>
    if isRustWhitespace c then
      (if acc = [] then wordsOfChars cs [] else acc.reverse :: wordsOfChars cs [])
    else wordsOfChars cs (c :: acc)

/-- The word tokens of a sentence. -/
def wordsOf (s : String) : List String := (wordsOfChars s.data []).map String.mk

/-- The non-stopword word tokens of a sentence group, as collected by the
loop of `tf_idf` (lines 419-423): `stop_words.contains` lowercases its
probe before the lookup (line 279). -/
def groupWords (sentences : List String) (stop_words : List String) : List String :=
  (sentences.flatMap wordsOf).filter (fun w => !(stop_words.contains (lowerStr w)))

/-- Model of `cosine_compare` (lines 405-415): dot product over the words
of `a`, looking each up in `b`. -/
def cosine_compare (a b : IdfMap) : F64 :=
  a.foldl (fun acc p =>
    match alGet b p.1 with
    | some y => fadd acc (fmul p.2 y)
    | none => acc) (.num 0)

/-- Model of `tf_idf` (lines 417-441): count stemmed non-stopword terms,
weight each count by its IDF (absent terms weigh 0), then divide every
weight by the Euclidean magnitude `sqrt(Σ x²)`. -/
def tf_idf (sentences : List String) (idfs : IdfMap) (stop_words : List String)
    (stem : String → String) (fsqrt : F64 → F64) : IdfMap :=
  let word_counts := ((groupWords sentences stop_words).map stem).foldl bumpCount []
  let idf_map : IdfMap := word_counts.map (fun p =>
    (p.1, fmul (.num (p.2 : ℚ)) ((alGet idfs p.1).getD (.num 0))))
  let mag := fsqrt (idf_map.foldl (fun acc p => fadd acc (fmul p.2 p.2)) (.num 0))
  idf_map.map (fun p => (p.1, fdiv p.2 mag))

/-- Model of `idfs` (lines 443-466): per sentence, the *set* of stemmed
non-stopword terms; the weight of each term is `log2(n / df)`. -/
def idfs (sentences : List String) (stop_words : List String)
    (stem : String → String) (flog2 : F64 → F64) : IdfMap :=
  let n : ℚ := (sentences.length : ℚ)
  let word_counts := (sentences.map (fun s =>
    (((wordsOf s).filter (fun w => !(stop_words.contains (lowerStr w)))).map stem).dedup)).flatten.foldl bumpCount []
  word_counts.map (fun p => (p.1, flog2 (fdiv (.num n) (.num (p.2 : ℚ)))))

/-- A concrete stand-in for `f64::sqrt` agreeing with it at the only
point the counterexample evaluates it: `sqrt(0.0) = 0.0` exactly. -/
def sqrtAtZero : F64 → F64 := fun x => if x = .num 0 then .num 0 else .nan

/-- A concrete stand-in for `f64::log2` agreeing with it at the only
point the counterexample evaluates it: `log2(1.0) = 0.0` exactly. -/
def log2AtOne : F64 → F64 := fun x => if x = .num 1 then .num 0 else .nan

/-! ## Helper lemmas -/

deriving instance DecidableEq for Except


/-- Unfolding lemma for `summarize_ratio` once the two preconditions hold,
the document is non-empty, and the rounded target has been computed. -/
theorem summarize_ratio_eval (doc : List String) (ranking : List Nat) (ratio : ℚ)
    (t : Nat) (h1 : 0 ≤ ratio ∧ ratio ≤ 1) (h2 : ¬ U32_MAX < docLen doc)
    (h3 : doc ≠ []) (ht : rustRound (ratio * (docLen doc : ℚ)) = t) :
    summarize_ratio doc ranking ratio =
      .ok (summarize_impl doc (ranking.take
        (max (findEndAux (ranking.map (fun j => sentenceCost (doc.getD j ""))) t 0 0) 1))) := by
  unfold summarize_ratio
  rw [if_neg (by simpa using h1), if_neg h2, if_neg h3, ht]

/-- Unfolding lemma for `ratioSelectClaimed` with the target pre-computed. -/
theorem ratioSelectClaimed_eval (doc : List String) (ranking : List Nat) (ratio : ℚ)
    (t : Nat) (ht : rustRound (ratio * (docLen doc : ℚ)) = t) :
    ratioSelectClaimed doc ranking ratio =
      (let firstOverflow := findEndAux (ranking.map (fun j => sentenceCost (doc.getD j ""))) t 0 0
       summarize_impl doc (ranking.take
        (if firstOverflow < ranking.length then firstOverflow + 1 else ranking.length))) := by
  unfold ratioSelectClaimed
  rw [ht]

/-- Evaluation helper for `rustRound` on concrete rationals. -/
theorem rustRound_eq (q : ℚ) (z : ℤ) (h : Int.floor (q + 1/2) = z) :
    rustRound q = z.toNat := by
  unfold rustRound
  rw [h]

theorem rustRound_half_seven : rustRound ((1:ℚ)/2 * (7:ℚ)) = 4 := by
  rw [rustRound_eq _ 4 (by norm_num)]
  rfl

/-- `round(1.0 × L) = L`: the target at ratio one is the document length. -/
theorem rustRound_one (L : Nat) : rustRound (1 * (L : ℚ)) = L := by
  rw [rustRound_eq _ (L : ℤ) ?_]
  · exact Int.toNat_natCast L
  · rw [Int.floor_eq_iff]
    constructor
    · push_cast
      linarith
    · push_cast
      linarith

/-- `round(0.0 × L) = 0`: the target at ratio zero is zero. -/
theorem rustRound_zero (L : Nat) : rustRound (0 * (L : ℚ)) = 0 := by
  rw [rustRound_eq _ 0 (by norm_num)]
  rfl

/-! ## Structural lemmas about the assembly stage (`summarize_impl`) -/

theorem retainLoop_nil : ∀ (ss : List String) (i : Nat), retainLoop ss [] i = []
  | [], _ => rfl
  | _ :: ss, i => retainLoop_nil ss (i + 1)

/-- The retain loop keeps exactly the sentences whose position (counted
from `i`) appears in the strictly increasing index list. -/
theorem retainLoop_eq_filterMap :
    ∀ (ss : List String) (idxs : List Nat) (i : Nat),
      idxs.Pairwise (· < ·) → (∀ j ∈ idxs, i ≤ j) →
      retainLoop ss idxs i = idxs.filterMap (fun j => ss[j - i]?) := by
  intro ss
  induction ss with
  | nil =>
    intro idxs i _ _
    rw [retainLoop]
    induction idxs with
    | nil => rfl
    | cons j rest ih => simp [List.filterMap_cons, ih]
  | cons s ss ih =>
    intro idxs i hpw hge
    match idxs with
    | [] =>
      rw [retainLoop, retainLoop_nil]
      rfl
    | j :: rest =>
      have hjge : i ≤ j := hge j (List.mem_cons_self j rest)
      have hrest_gt : ∀ m ∈ rest, j < m := fun m hm => (List.pairwise_cons.mp hpw).1 m hm
      have hrest_pw : rest.Pairwise (· < ·) := (List.pairwise_cons.mp hpw).2
      rw [retainLoop]
      by_cases hij : i = j
      · subst hij
        rw [if_pos rfl]
        have hge' : ∀ m ∈ rest, i + 1 ≤ m := fun m hm => by
          have := hrest_gt m hm
          omega
        rw [ih rest (i + 1) hrest_pw hge']
        have hj0 : (s :: ss)[i - i]? = some s := by
          simp
        rw [List.filterMap_cons, hj0]
        congr 1
        refine List.filterMap_congr (fun m hm => ?_) |>.symm
        have him : i + 1 ≤ m := by
          have := hrest_gt m hm
          omega
        have : m - i = (m - (i + 1)) + 1 := by omega
        rw [this, List.getElem?_cons_succ]
      · simp only [hij, if_false]
        have hlt : i < j := by omega
        have hge' : ∀ m ∈ j :: rest, i + 1 ≤ m := by
          intro m hm
          rcases List.mem_cons.mp hm with h | h
          · omega
          · have := hrest_gt m h
            omega
        rw [ih (j :: rest) (i + 1) hpw hge']
        refine List.filterMap_congr (fun m hm => ?_) |>.symm
        have him : i + 1 ≤ m := hge' m hm
        have : m - i = (m - (i + 1)) + 1 := by omega
        rw [this, List.getElem?_cons_succ]

/-- The retain loop only ever removes sentences. -/
theorem retainLoop_sublist :
    ∀ (ss : List String) (idxs : List Nat) (i : Nat), (retainLoop ss idxs i).Sublist ss := by
  intro ss
  induction ss with
  | nil =>
    intro idxs i
    rw [retainLoop]
  | cons s ss ih =>
    intro idxs i
    match idxs with
    | [] =>
      rw [retainLoop, retainLoop_nil]
      exact List.nil_sublist _
    | j :: rest =>
      rw [retainLoop]
      by_cases hij : i = j
      · subst hij
        rw [if_pos rfl]
        exact (ih rest (i + 1)).cons₂ s
      · rw [if_neg hij]
        exact (ih (j :: rest) (i + 1)).cons s

/-- Members of a `(· ≤ ·)`-sorted list are bounded by its last element. -/
theorem sorted_le_of_getLast? (l : List Nat) (hs : l.Pairwise (· ≤ ·)) (x y : Nat)
    (hx : x ∈ l) (hy : l.getLast? = some y) : x ≤ y := by
  induction l with
  | nil => cases hx
  | cons a l ih =>
    match l with
    | [] =>
      simp only [List.getLast?_singleton, Option.some.injEq] at hy
      simp only [List.mem_singleton] at hx
      omega
    | b :: l' =>
      rw [List.getLast?_cons_cons] at hy
      rcases List.mem_cons.mp hx with h | h
      · subst h
        have hyb : y ∈ b :: l' := List.mem_of_mem_getLast? (by rw [Option.mem_def, hy])
        exact (List.pairwise_cons.mp hs).1 y hyb
      · exact ih (List.pairwise_cons.mp hs).2 h hy

/-- `summarize_impl` always produces a subsequence of the sentence list. -/
theorem summarize_impl_sublist (doc : List String) (idxs : List Nat) :
    (summarize_impl doc idxs).Sublist doc := by
  unfold summarize_impl
  cases h : (List.insertionSort (· ≤ ·) idxs).getLast? with
  | none => exact List.nil_sublist _
  | some last => exact (retainLoop_sublist _ _ _).trans (List.take_sublist _ _)

/-- Characterization of `summarize_impl` on a non-empty duplicate-free
index list: it returns the sentences at the sorted indices. -/
theorem summarize_impl_eq (doc : List String) (idxs : List Nat)
    (hne : idxs ≠ []) (hnd : idxs.Nodup) :
    summarize_impl doc idxs =
      (List.insertionSort (· ≤ ·) idxs).filterMap (fun j => doc[j]?) := by
  have hperm : (List.insertionSort (· ≤ ·) idxs).Perm idxs := List.perm_insertionSort _ idxs
  have hsne : List.insertionSort (· ≤ ·) idxs ≠ [] := by
    intro h
    apply hne
    have := hperm.length_eq
    rw [h] at this
    exact List.eq_nil_of_length_eq_zero this.symm
  have hsorted : (List.insertionSort (· ≤ ·) idxs).Pairwise (· ≤ ·) :=
    List.sorted_insertionSort (· ≤ ·) idxs
  have hsnd : (List.insertionSort (· ≤ ·) idxs).Nodup := hperm.symm.nodup hnd
  have hpw : (List.insertionSort (· ≤ ·) idxs).Pairwise (· < ·) :=
    (hsorted.and hsnd).imp (fun h => lt_of_le_of_ne h.1 h.2)
  unfold summarize_impl
  rw [List.getLast?_eq_getLast _ hsne]
  show retainLoop (List.take ((List.insertionSort (· ≤ ·) idxs).getLast hsne + 1) doc)
      (List.insertionSort (· ≤ ·) idxs) 0 = _
  rw [retainLoop_eq_filterMap _ _ _ hpw (fun j _ => Nat.zero_le j)]
  refine List.filterMap_congr (fun j hj => ?_)
  have hjle : j ≤ (List.insertionSort (· ≤ ·) idxs).getLast hsne :=
    sorted_le_of_getLast? _ hsorted j _ hj (List.getLast?_eq_getLast _ hsne)
  rw [Nat.sub_zero, List.getElem?_take]
  rw [if_pos (by omega)]

/-- A `filterMap` whose function is everywhere defined preserves length. -/
theorem length_filterMap_of_isSome {α β : Type} (f : α → Option β) :
    ∀ (l : List α), (∀ a ∈ l, (f a).isSome) → (l.filterMap f).length = l.length := by
  intro l
  induction l with
  | nil => intro _; rfl
  | cons a l ih =>
    intro h
    have ha := h a (List.mem_cons_self a l)
    rw [List.filterMap_cons]
    cases hfa : f a with
    | none => rw [hfa] at ha; cases ha
    | some b =>
      simp only [List.length_cons]
      rw [ih (fun x hx => h x (List.mem_cons_of_mem a hx))]

/-- On a valid selection, `summarize_impl` keeps exactly one sentence per
selected index. -/
theorem summarize_impl_length (doc : List String) (idxs : List Nat)
    (hne : idxs ≠ []) (hnd : idxs.Nodup) (hlt : ∀ j ∈ idxs, j < doc.length) :
    (summarize_impl doc idxs).length = idxs.length := by
  rw [summarize_impl_eq doc idxs hne hnd]
  have hperm : (List.insertionSort (· ≤ ·) idxs).Perm idxs := List.perm_insertionSort _ idxs
  rw [length_filterMap_of_isSome _ _ (fun j hj => ?_)]
  · exact hperm.length_eq
  · have : j < doc.length := hlt j (hperm.mem_iff.mp hj)
    rw [List.getElem?_eq_getElem this]
    rfl

/-- Reading back every position of a list reproduces the list. -/
theorem filterMap_getElem?_range {α : Type} (l : List α) :
    (List.range l.length).filterMap (fun j => l[j]?) = l := by
  induction l with
  | nil => rfl
  | cons x xs ih =>
    rw [List.length_cons, List.range_succ_eq_map]
    rw [List.filterMap_cons, List.getElem?_cons_zero, List.filterMap_map]
    have : ((fun j => (x :: xs)[j]?) ∘ Nat.succ) = fun j => xs[j]? := by
      funext j
      simp
    rw [this, ih]

/-- Selecting a full permutation of the index range reproduces the whole
document. -/
theorem summarize_impl_perm_range (doc : List String) (idxs : List Nat)
    (hperm : idxs.Perm (List.range doc.length)) (hne : doc ≠ []) :
    summarize_impl doc idxs = doc := by
  have hlen : idxs.length = doc.length := by
    rw [hperm.length_eq, List.length_range]
  have hine : idxs ≠ [] := by
    intro h
    apply hne
    rw [h] at hlen
    exact List.eq_nil_of_length_eq_zero hlen.symm
  have hnd : idxs.Nodup := hperm.symm.nodup (List.nodup_range _)
  rw [summarize_impl_eq doc idxs hine hnd]
  have hsort_perm : (List.insertionSort (· ≤ ·) idxs).Perm (List.range doc.length) :=
    (List.perm_insertionSort _ idxs).trans hperm
  have hsort_eq : List.insertionSort (· ≤ ·) idxs = List.range doc.length :=
    List.eq_of_perm_of_sorted hsort_perm (List.sorted_insertionSort _ idxs)
      (List.sorted_le_range _)
  rw [hsort_eq, filterMap_getElem?_range]

/-! ## Specification of the ratio walk (`findEndAux`) -/

/-- Full characterization of the `find_map` walk: starting from
accumulated length `t` at position `i`, the walk advances by some `m ≤
|cs|` steps; every non-empty prefix it passed fits within the target, and
if it stopped early the prefix extended by the overflowing element
exceeds the target. -/
theorem findEndAux_spec (target : Nat) :
    ∀ (cs : List Nat) (t i : Nat), ∃ m,
      findEndAux cs target t i = i + m ∧ m ≤ cs.length ∧
      (∀ e, 1 ≤ e → e ≤ m → t + (cs.take e).sum ≤ target) ∧
      (m < cs.length → target < t + (cs.take (m + 1)).sum) := by
  intro cs
  induction cs with
  | nil =>
    intro t i
    exact ⟨0, rfl, Nat.le_refl _, fun e h1 h2 => by omega, fun h => by simp at h⟩
  | cons c cs ih =>
    intro t i
    rw [findEndAux]
    by_cases h : target < t + c
    · refine ⟨0, by rw [if_pos h]; omega, Nat.zero_le _, fun e h1 h2 => by omega, fun _ => ?_⟩
      simpa using h
    · rw [if_neg h]
      have hle : t + c ≤ target := by omega
      obtain ⟨m, heq, hm, hcum, hover⟩ := ih (t + c) (i + 1)
      refine ⟨m + 1, by rw [heq]; omega, by simpa using hm, ?_, ?_⟩
      · intro e h1 h2
        match e with
        | 1 => simpa using hle
        | e + 2 =>
          have := hcum (e + 1) (by omega) (by omega)
          simp only [List.take_succ_cons, List.sum_cons]
          omega
      · intro hlt
        have := hover (by simpa using hlt)
        simp only [List.take_succ_cons, List.sum_cons]
        omega

/-- If the whole remaining cost fits within the target, the walk reaches
the end of the ranking. -/
theorem findEndAux_of_sum_le (target : Nat) :
    ∀ (cs : List Nat) (t i : Nat), t + cs.sum ≤ target →
      findEndAux cs target t i = i + cs.length := by
  intro cs
  induction cs with
  | nil => intro t i _; simp [findEndAux]
  | cons c cs ih =>
    intro t i h
    simp only [List.sum_cons, List.length_cons] at h ⊢
    rw [findEndAux, if_neg (by omega)]
    rw [ih (t + c) (i + 1) (by omega)]
    omega

/-- One step of prefix-sum monotonicity. -/
theorem take_sum_le_take_succ_sum (l : List Nat) (e : Nat) :
    (l.take e).sum ≤ (l.take (e + 1)).sum := by
  rw [List.take_succ, List.sum_append]
  omega

/-- Reading back every position of a list via `getD` reproduces the list. -/
theorem map_getD_range {α : Type} (l : List α) (d : α) :
    (List.range l.length).map (fun j => l.getD j d) = l := by
  induction l with
  | nil => rfl
  | cons x xs ih =>
    rw [List.length_cons, List.range_succ_eq_map, List.map_cons, List.map_map]
    have h0 : (x :: xs).getD 0 d = x := rfl
    have : ((fun j => (x :: xs).getD j d) ∘ Nat.succ) = fun j => xs.getD j d := by
      funext j
      rfl
    rw [h0, this, ih]

/-! ## Facts about selections drawn from a ranking permutation -/

/-- Truncating a permutation of the index range yields a valid selection:
non-empty (when possible), duplicate-free, in range, of length `min n k`. -/
theorem take_ranking_facts (doc : List String) (ranking : List Nat) (n : Nat)
    (hperm : ranking.Perm (List.range doc.length)) :
    (ranking.take n).Nodup ∧ (∀ j ∈ ranking.take n, j < doc.length) ∧
      (ranking.take n).length = min n doc.length := by
  have hnd : ranking.Nodup := hperm.symm.nodup (List.nodup_range _)
  have hsub : (ranking.take n).Sublist ranking := List.take_sublist _ _
  refine ⟨hsub.nodup hnd, fun j hj => ?_, ?_⟩
  · have : j ∈ ranking := hsub.mem hj
    have : j ∈ List.range doc.length := hperm.mem_iff.mp this
    exact List.mem_range.mp this
  · rw [List.length_take, hperm.length_eq, List.length_range]

/-! ## Claim theorems: sentence-count selection -/

/-- Claim C2 (confirmed): for every document and every `n ≥
sentence_count(D)`, `summarize_sentences(D, n)` returns exactly all the
sentences of `D` in original document order. -/
theorem summarize_sentences_ge_count_identity (doc : List String) (ranking : List Nat)
    (n : Nat) (hperm : ranking.Perm (List.range doc.length)) (hn : doc.length ≤ n)
    (hsize : docLen doc ≤ U32_MAX) :
    summarize_sentences doc ranking n = .ok doc := by
  unfold summarize_sentences
  rw [if_neg (by omega)]
  by_cases hd : doc = []
  · rw [if_pos hd, hd]
  · rw [if_neg hd]
    have hlen : ranking.length = doc.length := by
      rw [hperm.length_eq, List.length_range]
    rw [List.take_of_length_le (by omega)]
    rw [summarize_impl_perm_range doc ranking hperm hd]

theorem summarize_sentences_ge_count_identity_witness :
    (([1, 0] : List Nat).Perm (List.range (["A. ", "B!"] : List String).length) ∧
      (["A. ", "B!"] : List String).length ≤ 5 ∧ docLen ["A. ", "B!"] ≤ U32_MAX) ∧
    summarize_sentences ["A. ", "B!"] [1, 0] 5 = .ok ["A. ", "B!"] :=
  ⟨⟨by decide, by decide, by decide⟩,
    summarize_sentences_ge_count_identity ["A. ", "B!"] [1, 0] 5
      (by decide) (by decide) (by decide)⟩

/-- Claim C3 (confirmed): for every document and `n ≥ 1`, the result of
`summarize_sentences(D, n)` is a subsequence of the segmented sentence
list, of length at most `n` and at most `sentence_count(D)`. -/
theorem summarize_sentences_sublist_bounds (doc : List String) (ranking : List Nat)
    (n : Nat) (hperm : ranking.Perm (List.range doc.length)) (hn : 1 ≤ n)
    (hsize : docLen doc ≤ U32_MAX) :
    ∃ out, summarize_sentences doc ranking n = .ok out ∧ out.Sublist doc ∧
      out.length ≤ n ∧ out.length ≤ doc.length := by
  unfold summarize_sentences
  rw [if_neg (by omega)]
  by_cases hd : doc = []
  · rw [if_pos hd]
    exact ⟨[], rfl, List.nil_sublist _, Nat.zero_le _, Nat.zero_le _⟩
  · rw [if_neg hd]
    obtain ⟨hnd, hlt, hlen⟩ := take_ranking_facts doc ranking n hperm
    have hk : 1 ≤ doc.length := List.length_pos.mpr hd
    have hne : ranking.take n ≠ [] := by
      intro h
      rw [h] at hlen
      simp at hlen
      omega
    refine ⟨_, rfl, summarize_impl_sublist doc _, ?_, ?_⟩
    · rw [summarize_impl_length doc _ hne hnd hlt, hlen]
      omega
    · exact (summarize_impl_sublist doc _).length_le

theorem summarize_sentences_sublist_bounds_witness :
    (([1, 0] : List Nat).Perm (List.range (["A. ", "B!"] : List String).length) ∧
      1 ≤ 1 ∧ docLen ["A. ", "B!"] ≤ U32_MAX) ∧
    (∃ out, summarize_sentences ["A. ", "B!"] [1, 0] 1 = .ok out ∧
      out.Sublist ["A. ", "B!"] ∧ out.length ≤ 1 ∧
      out.length ≤ (["A. ", "B!"] : List String).length) :=
  ⟨⟨by decide, by decide, by decide⟩,
    summarize_sentences_sublist_bounds ["A. ", "B!"] [1, 0] 1
      (by decide) (by decide) (by decide)⟩

/-- Claim C10 (confirmed): for every non-empty document and every `n ≥ 1`,
`summarize_sentences(D, n)` returns exactly `min n (sentence_count D)`
sentences. -/
theorem summarize_sentences_length_eq (doc : List String) (ranking : List Nat)
    (n : Nat) (hne : doc ≠ []) (hperm : ranking.Perm (List.range doc.length))
    (hn : 1 ≤ n) (hsize : docLen doc ≤ U32_MAX) :
    ∃ out, summarize_sentences doc ranking n = .ok out ∧
      out.length = min n doc.length := by
  unfold summarize_sentences
  rw [if_neg (by omega), if_neg hne]
  obtain ⟨hnd, hlt, hlen⟩ := take_ranking_facts doc ranking n hperm
  have hk : 1 ≤ doc.length := List.length_pos.mpr hne
  have htne : ranking.take n ≠ [] := by
    intro h
    rw [h] at hlen
    simp at hlen
    omega
  exact ⟨_, rfl, by rw [summarize_impl_length doc _ htne hnd hlt, hlen]⟩

theorem summarize_sentences_length_eq_witness :
    ((["A. ", "B!"] : List String) ≠ [] ∧
      ([1, 0] : List Nat).Perm (List.range (["A. ", "B!"] : List String).length) ∧
      1 ≤ 1 ∧ docLen ["A. ", "B!"] ≤ U32_MAX) ∧
    (∃ out, summarize_sentences ["A. ", "B!"] [1, 0] 1 = .ok out ∧
      out.length = min 1 (["A. ", "B!"] : List String).length) :=
  ⟨⟨by decide, by decide, by decide, by decide⟩,
    summarize_sentences_length_eq ["A. ", "B!"] [1, 0] 1
      (by decide) (by decide) (by decide) (by decide)⟩

/-! ## Claim theorems: ratio selection -/

/-- Claim C5 (confirmed): for every non-empty document and every ratio in
`[0, 1]` — including `0` — `summarize_ratio` returns at least one
sentence. -/
theorem summarize_ratio_nonempty (doc : List String) (ranking : List Nat) (ratio : ℚ)
    (hne : doc ≠ []) (hperm : ranking.Perm (List.range doc.length))
    (hr : 0 ≤ ratio ∧ ratio ≤ 1) (hsize : docLen doc ≤ U32_MAX) :
    ∃ out, summarize_ratio doc ranking ratio = .ok out ∧ 1 ≤ out.length := by
  unfold summarize_ratio
  rw [if_neg (by simpa using hr), if_neg (by omega), if_neg hne]
  refine ⟨_, rfl, ?_⟩
  show 1 ≤ (summarize_impl doc (ranking.take
    (max (findEndAux (ranking.map (fun j => sentenceCost (doc.getD j "")))
      (rustRound (ratio * (docLen doc : ℚ))) 0 0) 1))).length
  set e := max (findEndAux (ranking.map (fun j => sentenceCost (doc.getD j "")))
    (rustRound (ratio * (docLen doc : ℚ))) 0 0) 1 with he
  obtain ⟨hnd, hlt, hlen⟩ := take_ranking_facts doc ranking e hperm
  have hk : 1 ≤ doc.length := List.length_pos.mpr hne
  have he1 : 1 ≤ e := le_max_right _ 1
  have htne : ranking.take e ≠ [] := by
    intro h
    rw [h] at hlen
    simp at hlen
    omega
  rw [summarize_impl_length doc _ htne hnd hlt, hlen]
  omega

theorem summarize_ratio_nonempty_witness :
    ((["Hi."] : List String) ≠ [] ∧
      ([0] : List Nat).Perm (List.range (["Hi."] : List String).length) ∧
      ((0:ℚ) ≤ 0 ∧ (0:ℚ) ≤ 1) ∧ docLen ["Hi."] ≤ U32_MAX) ∧
    (∃ out, summarize_ratio ["Hi."] [0] 0 = .ok out ∧ 1 ≤ out.length) :=
  ⟨⟨by decide, by decide, by norm_num, by decide⟩,
    summarize_ratio_nonempty ["Hi."] [0] 0
      (by decide) (by decide) (by norm_num) (by decide)⟩

/-- Claim C1 (counterexample): at document `["Hi. ", "Yo."]` (7 bytes),
ranking `[0, 1]` and ratio `1/2` (target `round(3.5) = 4`), the code
selects only the first ranked sentence (accumulated `4 ≤ 4`, then `8 > 4`
stops *before* including the overflowing sentence), while the claimed
walk — which includes the sentence causing the overflow — selects both. -/
theorem summarize_ratio_overflow_counterexample :
    summarize_ratio ["Hi. ", "Yo."] [0, 1] (1/2) = .ok ["Hi. "] ∧
    ratioSelectClaimed ["Hi. ", "Yo."] [0, 1] (1/2) = ["Hi. ", "Yo."] ∧
    (["Hi. "] : List String) ≠ ["Hi. ", "Yo."] := by
  refine ⟨?_, ?_, by decide⟩
  · rw [summarize_ratio_eval _ _ _ 4 (by norm_num) (by decide) (by decide)
      (by simpa using rustRound_half_seven)]
    decide
  · rw [ratioSelectClaimed_eval _ _ _ 4 (by simpa using rustRound_half_seven)]
    decide

/-- Claim C1 (amended): for every non-empty document and ratio in `[0,1]`,
`summarize_ratio` returns the assembly of the first `e` positions of the
ranking, where `e` is characterized by: `1 ≤ e ≤ sentence_count`; if
`e ≥ 2` the accumulated `trim_end(sentence).length + 1` cost of the
selected prefix fits within the target `round(ratio × byte length)`; and
if `e < sentence_count` extending the selection by the next ranked
sentence would exceed the target.  (The sentence causing the overflow is
excluded, and at least one sentence is always kept.) -/
theorem summarize_ratio_selection (doc : List String) (ranking : List Nat) (ratio : ℚ)
    (hne : doc ≠ []) (hperm : ranking.Perm (List.range doc.length))
    (hr : 0 ≤ ratio ∧ ratio ≤ 1) (hsize : docLen doc ≤ U32_MAX) :
    ∃ e, summarize_ratio doc ranking ratio = .ok (summarize_impl doc (ranking.take e)) ∧
      1 ≤ e ∧ e ≤ doc.length ∧
      (2 ≤ e → cumCost doc ranking e ≤ rustRound (ratio * (docLen doc : ℚ))) ∧
      (e < doc.length →
        rustRound (ratio * (docLen doc : ℚ)) < cumCost doc ranking (e + 1)) := by
  have hk : 1 ≤ doc.length := List.length_pos.mpr hne
  have hrlen : ranking.length = doc.length := by
    rw [hperm.length_eq, List.length_range]
  set target := rustRound (ratio * (docLen doc : ℚ)) with htgt
  set costs := ranking.map (fun j => sentenceCost (doc.getD j "")) with hcosts
  have hclen : costs.length = doc.length := by
    rw [hcosts, List.length_map, hrlen]
  have hcum : ∀ a, cumCost doc ranking a = (costs.take a).sum := by
    intro a
    rw [cumCost, hcosts, List.map_take]
  obtain ⟨m, hm_eq, hm_le, hm_cum, hm_over⟩ := findEndAux_spec target costs 0 0
  rw [Nat.zero_add] at hm_eq
  refine ⟨max (findEndAux costs target 0 0) 1, ?_, le_max_right _ 1, ?_, ?_, ?_⟩
  · unfold summarize_ratio
    rw [if_neg (by simpa using hr), if_neg (by omega), if_neg hne]
  · rw [hm_eq]
    rw [hclen] at hm_le
    omega
  · intro h2
    rw [hm_eq] at h2 ⊢
    have hem : max m 1 = m := by omega
    rw [hem, hcum]
    exact by simpa using hm_cum m (by omega) (le_refl m)
  · intro hlt
    rw [hm_eq] at hlt ⊢
    rw [hcum]
    by_cases hm0 : m = 0
    · have h1 : target < (costs.take 1).sum := by
        have := hm_over (by omega)
        simpa [hm0] using this
      have hmax : max m 1 = 1 := by omega
      rw [hmax]
      have := take_sum_le_take_succ_sum costs 1
      omega
    · have hmax : max m 1 = m := by omega
      rw [hmax] at hlt ⊢
      have := hm_over (by omega)
      simpa using this

theorem summarize_ratio_selection_witness :
    ((["Hi. ", "Yo."] : List String) ≠ [] ∧
      ([0, 1] : List Nat).Perm (List.range (["Hi. ", "Yo."] : List String).length) ∧
      ((0:ℚ) ≤ 1/2 ∧ (1:ℚ)/2 ≤ 1) ∧ docLen ["Hi. ", "Yo."] ≤ U32_MAX) ∧
    (∃ e, summarize_ratio ["Hi. ", "Yo."] [0, 1] (1/2) =
        .ok (summarize_impl ["Hi. ", "Yo."] (([0, 1] : List Nat).take e)) ∧
      1 ≤ e ∧ e ≤ (["Hi. ", "Yo."] : List String).length ∧
      (2 ≤ e → cumCost ["Hi. ", "Yo."] [0, 1] e ≤
        rustRound (1/2 * (docLen ["Hi. ", "Yo."] : ℚ))) ∧
      (e < (["Hi. ", "Yo."] : List String).length →
        rustRound (1/2 * (docLen ["Hi. ", "Yo."] : ℚ)) <
          cumCost ["Hi. ", "Yo."] [0, 1] (e + 1))) :=
  ⟨⟨by decide, by decide, by norm_num, by decide⟩,
    summarize_ratio_selection ["Hi. ", "Yo."] [0, 1] (1/2)
      (by decide) (by decide) (by norm_num) (by decide)⟩

/-- Claim C4 (counterexample): on the 7-byte two-sentence document
`["Hi. ", "Yo."]` the accumulated cost at ratio `1.0` is
`(3+1) + (3+1) = 8 > 7`, so whichever of the two possible rankings the
similarity stage produces, the code returns a single sentence instead of
the whole document. -/
theorem summarize_ratio_one_counterexample :
    summarize_ratio ["Hi. ", "Yo."] [0, 1] 1 = .ok ["Hi. "] ∧
    summarize_ratio ["Hi. ", "Yo."] [1, 0] 1 = .ok ["Yo."] ∧
    (["Hi. "] : List String) ≠ ["Hi. ", "Yo."] ∧
    (["Yo."] : List String) ≠ ["Hi. ", "Yo."] := by
  refine ⟨?_, ?_, by decide, by decide⟩
  · rw [summarize_ratio_eval _ _ _ 7 (by norm_num) (by decide) (by decide)
      (by simpa using rustRound_one 7)]
    decide
  · rw [summarize_ratio_eval _ _ _ 7 (by norm_num) (by decide) (by decide)
      (by simpa using rustRound_one 7)]
    decide

/-- Claim C4 (amended): `summarize_ratio(D, 1.0)` returns all sentences of
`D` in original document order, provided the total accumulated cost
`Σ (trim_end(s).length + 1)` does not exceed the document byte length —
in particular whenever every sentence carries at least one trailing
whitespace byte.  (Otherwise the `+1` separator costs can overflow the
target and the lowest-ranked sentence is dropped.) -/
theorem summarize_ratio_one_identity (doc : List String) (ranking : List Nat)
    (hperm : ranking.Perm (List.range doc.length)) (hsize : docLen doc ≤ U32_MAX)
    (hcost : (doc.map sentenceCost).sum ≤ docLen doc) :
    summarize_ratio doc ranking 1 = .ok doc := by
  by_cases hne : doc = []
  · unfold summarize_ratio
    rw [if_neg (by norm_num), if_neg (by omega), if_pos hne, hne]
  · have hk : 1 ≤ doc.length := List.length_pos.mpr hne
    have hrlen : ranking.length = doc.length := by
      rw [hperm.length_eq, List.length_range]
    rw [summarize_ratio_eval doc ranking 1 (docLen doc) (by norm_num) (by omega) hne
      (by simpa using rustRound_one (docLen doc))]
    have hsum : (ranking.map (fun j => sentenceCost (doc.getD j ""))).sum =
        (doc.map sentenceCost).sum := by
      have hp : (ranking.map (fun j => sentenceCost (doc.getD j ""))).Perm
          ((List.range doc.length).map (fun j => sentenceCost (doc.getD j ""))) :=
        hperm.map _
      rw [hp.sum_eq]
      have : (List.range doc.length).map (fun j => sentenceCost (doc.getD j "")) =
          doc.map sentenceCost := by
        rw [show (fun j => sentenceCost (doc.getD j "")) =
            (sentenceCost ∘ (fun j => doc.getD j "")) from rfl]
        rw [← List.map_map, map_getD_range]
      rw [this]
    rw [findEndAux_of_sum_le (docLen doc) _ 0 0 (by rw [hsum]; omega)]
    have hflen : (ranking.map (fun j => sentenceCost (doc.getD j ""))).length =
        doc.length := by
      rw [List.length_map, hrlen]
    rw [hflen, Nat.zero_add, Nat.max_eq_left hk]
    rw [List.take_of_length_le (by omega)]
    rw [summarize_impl_perm_range doc ranking hperm hne]

theorem summarize_ratio_one_identity_witness :
    (([1, 0] : List Nat).Perm (List.range (["Hi. ", "Yo. "] : List String).length) ∧
      docLen ["Hi. ", "Yo. "] ≤ U32_MAX ∧
      ((["Hi. ", "Yo. "] : List String).map sentenceCost).sum ≤ docLen ["Hi. ", "Yo. "]) ∧
    summarize_ratio ["Hi. ", "Yo. "] [1, 0] 1 = .ok ["Hi. ", "Yo. "] :=
  ⟨⟨by decide, by decide, by decide⟩,
    summarize_ratio_one_identity ["Hi. ", "Yo. "] [1, 0]
      (by decide) (by decide) (by decide)⟩

/-- Claim C8 (confirmed): both entry points fail exactly at the stated
precondition boundaries, and the checks precede all processing: a
document of at most `2^32 − 1` bytes succeeds and one byte more fails
with `inputTooLarge`; `summarize_ratio` fails with `invalidRatio` for any
ratio outside `[0, 1]` (this check fires first, regardless of the
document), while `0.0` and `1.0` are accepted. -/
theorem summarize_precondition_boundaries (doc : List String) (ranking : List Nat)
    (ratio : ℚ) (n : Nat) :
    ((∃ out, summarize_sentences doc ranking n = .ok out) ↔ docLen doc ≤ U32_MAX) ∧
    (summarize_sentences doc ranking n = .error .inputTooLarge ↔
      U32_MAX < docLen doc) ∧
    ((∃ out, summarize_ratio doc ranking ratio = .ok out) ↔
      ((0 ≤ ratio ∧ ratio ≤ 1) ∧ docLen doc ≤ U32_MAX)) ∧
    (summarize_ratio doc ranking ratio = .error .invalidRatio ↔
      ¬ (0 ≤ ratio ∧ ratio ≤ 1)) ∧
    (summarize_ratio doc ranking ratio = .error .inputTooLarge ↔
      ((0 ≤ ratio ∧ ratio ≤ 1) ∧ U32_MAX < docLen doc)) := by
  have hnil : docLen [] = 0 := rfl
  unfold summarize_sentences summarize_ratio
  by_cases hr : 0 ≤ ratio ∧ ratio ≤ 1 <;>
    by_cases hs : U32_MAX < docLen doc <;>
      by_cases hd : doc = [] <;>
        simp [hr, hs, hd, hnil] <;> omega

/-- Claim C9 (counterexample): with two equal similarity keys the code
selects index 1 (the last maximal element), not the first index achieving
the maximum. -/
theorem coreIndex_counterexample :
    coreIndex [1, 1] = some 1 ∧ firstMaxIndex [1, 1] = some 0 ∧
    (some 1 : Option Nat) ≠ some 0 := by
  refine ⟨?_, ?_, by decide⟩
  · norm_num [coreIndex, coreIndexAux, coreStep]
  · norm_num [firstMaxIndex, List.findIdx?, List.all]

/-- One `max_by_key` step over an element appended on the right. -/
theorem coreIndexAux_append (ys : List ℚ) (y : ℚ) :
    ∀ (i : Nat) (best : Option (Nat × ℚ)),
      coreIndexAux (ys ++ [y]) i best =
        coreStep (coreIndexAux ys i best) (i + ys.length) y := by
  induction ys with
  | nil =>
    intro i best
    simp [coreIndexAux]
  | cons x xs ih =>
    intro i best
    rw [List.cons_append, coreIndexAux, coreIndexAux, ih]
    have : i + 1 + xs.length = i + (x :: xs).length := by
      rw [List.length_cons]
      omega
    rw [this]

/-- Invariant of the `max_by_key` fold started at a concrete best pair:
the final key bounds every later element, and the final index is either
the initial one (when every later element is strictly smaller) or points
at the last position achieving the final key. -/
theorem coreIndexAux_last_argmax (ys : List ℚ) :
    ∀ (i j : Nat) (m : ℚ), ∃ jr mr,
      coreIndexAux ys i (some (j, m)) = some (jr, mr) ∧
      m ≤ mr ∧ (∀ q, q < ys.length → ys.getD q 0 ≤ mr) ∧
      ((jr = j ∧ mr = m ∧ (∀ q, q < ys.length → ys.getD q 0 < m)) ∨
       (∃ p, p < ys.length ∧ jr = i + p ∧ mr = ys.getD p 0 ∧
         (∀ q, p < q → q < ys.length → ys.getD q 0 < mr))) := by
  induction ys using List.reverseRecOn with
  | nil =>
    intro i j m
    exact ⟨j, m, rfl, le_refl m, fun q hq => by simp at hq,
      Or.inl ⟨rfl, rfl, fun q hq => by simp at hq⟩⟩
  | append_singleton ys y ih =>
    intro i j m
    obtain ⟨jr, mr, heq, hle, hub, hcase⟩ := ih i j m
    rw [coreIndexAux_append, heq]
    simp only [coreStep]
    by_cases hy : mr > y
    · rw [if_pos hy]
      refine ⟨jr, mr, rfl, hle, ?_, ?_⟩
      · intro q hq
        rw [List.length_append, List.length_singleton] at hq
        by_cases hql : q < ys.length
        · rw [List.getD_append _ _ _ _ hql]
          exact hub q hql
        · have hqe : q = ys.length := by omega
          rw [hqe, List.getD_append_right _ _ _ _ (le_refl _), Nat.sub_self,
            List.getD_cons_zero]
          exact le_of_lt hy
      · rcases hcase with ⟨h1, h2, h3⟩ | ⟨p, hp, h1, h2, h3⟩
        · refine Or.inl ⟨h1, h2, ?_⟩
          intro q hq
          rw [List.length_append, List.length_singleton] at hq
          by_cases hql : q < ys.length
          · rw [List.getD_append _ _ _ _ hql]
            exact h3 q hql
          · have hqe : q = ys.length := by omega
            rw [hqe, List.getD_append_right _ _ _ _ (le_refl _), Nat.sub_self,
              List.getD_cons_zero, ← h2]
            exact hy
        · refine Or.inr ⟨p, ?_, h1, ?_, ?_⟩
          · rw [List.length_append, List.length_singleton]
            omega
          · rw [List.getD_append _ _ _ _ hp]
            exact h2
          · intro q hpq hq
            rw [List.length_append, List.length_singleton] at hq
            by_cases hql : q < ys.length
            · rw [List.getD_append _ _ _ _ hql]
              exact h3 q hpq hql
            · have hqe : q = ys.length := by omega
              rw [hqe, List.getD_append_right _ _ _ _ (le_refl _), Nat.sub_self,
                List.getD_cons_zero]
              exact hy
    · rw [if_neg hy]
      have hyle : mr ≤ y := by linarith [not_lt.mp hy]
      refine ⟨i + ys.length, y, rfl, le_trans hle hyle, ?_, ?_⟩
      · intro q hq
        rw [List.length_append, List.length_singleton] at hq
        by_cases hql : q < ys.length
        · rw [List.getD_append _ _ _ _ hql]
          exact le_trans (hub q hql) hyle
        · have hqe : q = ys.length := by omega
          rw [hqe, List.getD_append_right _ _ _ _ (le_refl _), Nat.sub_self,
            List.getD_cons_zero]
      · refine Or.inr ⟨ys.length, ?_, rfl, ?_, ?_⟩
        · rw [List.length_append, List.length_singleton]
          omega
        · rw [List.getD_append_right _ _ _ _ (le_refl _), Nat.sub_self,
            List.getD_cons_zero]
        · intro q hpq hq
          rw [List.length_append, List.length_singleton] at hq
          omega

/-- Claim C9 (amended): on a non-empty similarity list the core selector
picks the **last** (highest) original index achieving the maximum
similarity — the Rust `max_by_key` returns the last maximal element — not
the first index achieving the maximum. -/
theorem coreIndex_last_max (sims : List ℚ) (hne : sims ≠ []) :
    ∃ i, coreIndex sims = some i ∧ i < sims.length ∧
      (∀ q, q < sims.length → sims.getD q 0 ≤ sims.getD i 0) ∧
      (∀ q, i < q → q < sims.length → sims.getD q 0 < sims.getD i 0) := by
  match sims with
  | [] => exact absurd rfl hne
  | x :: xs =>
    have hstart : coreIndex (x :: xs) = (coreIndexAux xs 1 (some (0, x))).map Prod.fst := by
      rw [coreIndex, coreIndexAux]
      rfl
    obtain ⟨jr, mr, heq, hle, hub, hcase⟩ := coreIndexAux_last_argmax xs 1 0 x
    rw [heq] at hstart
    rcases hcase with ⟨h1, h2, h3⟩ | ⟨p, hp, h1, h2, h3⟩
    · refine ⟨0, by rw [hstart, h1]; rfl, by simp, ?_, ?_⟩
      · intro q hq
        match q with
        | 0 => exact le_refl _
        | q + 1 =>
          rw [List.getD_cons_succ, List.getD_cons_zero]
          rw [List.length_cons] at hq
          exact le_of_lt (h3 q (by omega))
      · intro q h0q hq
        match q with
        | 0 => omega
        | q + 1 =>
          rw [List.getD_cons_succ, List.getD_cons_zero]
          rw [List.length_cons] at hq
          exact h3 q (by omega)
    · have hjr : jr = p + 1 := by omega
      refine ⟨p + 1, by rw [hstart, hjr]; rfl, ?_, ?_, ?_⟩
      · rw [List.length_cons]
        omega
      · intro q hq
        rw [List.getD_cons_succ, ← h2]
        match q with
        | 0 => exact hle
        | q + 1 =>
          rw [List.getD_cons_succ]
          rw [List.length_cons] at hq
          exact hub q (by omega)
      · intro q hpq hq
        match q with
        | 0 => omega
        | q + 1 =>
          rw [List.getD_cons_succ, List.getD_cons_succ, ← h2]
          rw [List.length_cons] at hq
          exact h3 q (by omega) (by omega)

theorem coreIndex_last_max_witness :
    (([1, 1] : List ℚ) ≠ []) ∧
    (∃ i, coreIndex [1, 1] = some i ∧ i < ([1, 1] : List ℚ).length ∧
      (∀ q, q < ([1, 1] : List ℚ).length →
        ([1, 1] : List ℚ).getD q 0 ≤ ([1, 1] : List ℚ).getD i 0) ∧
      (∀ q, i < q → q < ([1, 1] : List ℚ).length →
        ([1, 1] : List ℚ).getD q 0 < ([1, 1] : List ℚ).getD i 0)) :=
  ⟨by decide, coreIndex_last_max [1, 1] (by decide)⟩

/-- Claim C6 (amended): a sentence group with *no* non-stopword terms
yields an empty map — a well-defined zero vector whose similarity to
every vector is 0, with no NaN.  (A group whose terms exist but all have
IDF weight 0 instead has its weights divided by a zero magnitude,
producing NaN values that propagate into cosine similarities; see the
counterexample.) -/
theorem tf_idf_all_stopword_zero (sentences : List String) (idfTable : IdfMap)
    (stop_words : List String) (stem : String → String) (fsqrt : F64 → F64)
    (b : IdfMap) (h : groupWords sentences stop_words = []) :
    tf_idf sentences idfTable stop_words stem fsqrt = [] ∧
    cosine_compare (tf_idf sentences idfTable stop_words stem fsqrt) b = .num 0 := by
  have hempty : tf_idf sentences idfTable stop_words stem fsqrt = [] := by
    unfold tf_idf
    rw [h]
    rfl
  exact ⟨hempty, by rw [hempty]; rfl⟩

theorem tf_idf_all_stopword_zero_witness :
    groupWords ["The the"] ["the"] = [] ∧
    (tf_idf ["The the"] [("x", F64.num 1)] ["the"] lowerStr sqrtAtZero = [] ∧
      cosine_compare (tf_idf ["The the"] [("x", F64.num 1)] ["the"] lowerStr sqrtAtZero)
        [("x", F64.num 1)] = .num 0) :=
  ⟨by decide,
    tf_idf_all_stopword_zero ["The the"] [("x", F64.num 1)] ["the"] lowerStr sqrtAtZero
      [("x", F64.num 1)] (by decide)⟩

/-- Claim C6 (counterexample): in the two-sentence document
`["spot", "spot"]` (language-agnostic configuration: identity stemming
with lowercasing, empty stopword set) the term `spot` occurs in every
sentence, so its IDF weight is `log2(2/2) = 0`; the single-sentence group
`["spot"]` then has the non-empty weight vector `{spot ↦ 0}` with zero
magnitude, and the normalization divides by zero: the stored weight is
`0.0/0.0 = NaN`, and the cosine similarity of the group with itself is
NaN — not the claimed well-defined 0. -/
theorem degenerate_vector_nan_counterexample :
    idfs ["spot", "spot"] [] lowerStr log2AtOne = [("spot", F64.num 0)] ∧
    tf_idf ["spot"] (idfs ["spot", "spot"] [] lowerStr log2AtOne) [] lowerStr sqrtAtZero =
      [("spot", F64.nan)] ∧
    cosine_compare
      (tf_idf ["spot"] (idfs ["spot", "spot"] [] lowerStr log2AtOne) [] lowerStr sqrtAtZero)
      (tf_idf ["spot"] (idfs ["spot", "spot"] [] lowerStr log2AtOne) [] lowerStr sqrtAtZero) =
      F64.nan ∧
    F64.nan ≠ F64.num 0 := by
  have hwords : groupWords ["spot"] [] = ["spot"] := by decide
  have hcounts1 : (["spot"].map lowerStr).foldl bumpCount [] = [("spot", 1)] := by decide
  have htable : idfs ["spot", "spot"] [] lowerStr log2AtOne = [("spot", F64.num 0)] := by
    unfold idfs
    have hsets : ((["spot", "spot"] : List String).map (fun s =>
        (((wordsOf s).filter (fun w => !(([] : List String).contains (lowerStr w)))).map
          lowerStr).dedup)).flatten.foldl bumpCount [] = [("spot", 2)] := by
      decide
    rw [hsets]
    have hq : fdiv (.num ((["spot", "spot"] : List String).length : ℚ)) (.num ((2 : Nat) : ℚ)) =
        .num 1 := by
      show fdiv (.num ((2 : Nat) : ℚ)) (.num ((2 : Nat) : ℚ)) = .num 1
      show (if ((2 : Nat) : ℚ) = 0 then F64.nan
        else F64.num (((2 : Nat) : ℚ) / ((2 : Nat) : ℚ))) = F64.num 1
      rw [if_neg (by norm_num)]
      norm_num
    simp only [List.map_cons, List.map_nil, hq]
    rw [show log2AtOne (.num 1) = .num 0 from rfl]
  have hvec : tf_idf ["spot"] (idfs ["spot", "spot"] [] lowerStr log2AtOne) [] lowerStr
      sqrtAtZero = [("spot", F64.nan)] := by
    rw [htable]
    unfold tf_idf
    rw [hwords, hcounts1]
    have hw : fmul (.num ((1 : Nat) : ℚ)) ((alGet [("spot", F64.num 0)] "spot").getD (.num 0)) =
        .num 0 := by
      rw [show (alGet [("spot", F64.num 0)] "spot").getD (.num 0) = F64.num 0 from rfl]
      unfold fmul
      norm_num
    simp only [List.map_cons, List.map_nil, hw]
    have hmag : sqrtAtZero ((([("spot", F64.num 0)] : IdfMap)).foldl
        (fun acc p => fadd acc (fmul p.2 p.2)) (.num 0)) = .num 0 := by
      rw [show (([("spot", F64.num 0)] : IdfMap)).foldl
        (fun acc p => fadd acc (fmul p.2 p.2)) (.num 0) = fadd (.num 0) (fmul (.num 0) (.num 0))
        from rfl]
      rw [show fadd (.num 0) (fmul (.num 0) (.num 0)) = .num (0 + 0 * 0) from rfl]
      norm_num [sqrtAtZero]
    rw [hmag]
    rw [show fdiv (F64.num 0) (F64.num 0) = F64.nan from by
      show (if (0 : ℚ) = 0 then F64.nan else F64.num ((0 : ℚ) / (0 : ℚ))) = F64.nan
      rw [if_pos rfl]]
  refine ⟨htable, hvec, ?_, by decide⟩
  rw [hvec]
  rfl

